import Mathlib

/-! # cert-manager-sync: PEM bundle decomposition, change cache and sync orchestration

A shallow embedding of `acm.go` and `main.go`.

* Go byte slices and the strings converted from them are lists of byte values (`Bytes`).
* Secret names, namespaces, annotation keys and annotation values are `String`s.
* Go maps (`Data`, `Annotations`) are association lists; a missing key reads as the zero value.
* The package globals `cache` and `operatorName` are passed explicitly.
* A Go runtime panic is the `error` side of `Except Panic`.
* The remote collaborators (ACM, the cluster API, the Incapsula helpers) are the fields of `Env`;
  each call is appended to a history of `Event`s, and each answer may depend on that history.
-/

set_option autoImplicit false
set_option linter.dupNamespace false

namespace CertManagerSync

/-! ## Data model -/

/-- A Go `[]byte` (or the `string` converted from it): the list of its byte values. Byte values
are the numbers below 256; no statement depends on that bound. -/
abbrev Bytes := List Nat

/-- Runtime panics of the Go program. -/
inductive Panic where
  /-- Index expression `a[index]` on a slice of length `len`, with `index` out of range. -/
  | indexOutOfRange (index len : Nat)
deriving DecidableEq, Repr

deriving instance DecidableEq for Except

/-- Struct `Certificate` of `main.go`. -/
structure Certificate where
  SecretName : String
  Chain : Bytes
  Certificate : Bytes
  Key : Bytes
deriving DecidableEq, Repr

/-- The fields of `corev1.Secret` that the program reads or writes. -/
structure Secret where
  Namespace : String
  Name : String
  Annotations : List (String × String)
  Data : List (String × Bytes)
deriving DecidableEq, Repr

/-- Map read `s.Annotations[k]`: the empty string when the key is missing. -/
def Secret.annotation (s : Secret) (k : String) : String :=
  (s.Annotations.lookup k).getD ""

/-- Map read `s.Data[k]`: the nil (empty) slice when the key is missing. -/
def Secret.data (s : Secret) (k : String) : Bytes :=
  (s.Data.lookup k).getD []

/-! ## `strings.Index`, `strings.Split`, `strings.Join` -/

/-- Go `strings.Index(s, sep)`: the position of the leftmost occurrence of `sep` in `s`;
`none` stands for `-1`. -/
def index (s sep : Bytes) : Option Nat :=
  if sep.isPrefixOf s then some 0
  else match s with
    | [] => none
    | _ :: t => (index t sep).map (· + 1)

/-- The loop of Go `strings.Split` for a non-empty separator: cut at the leftmost occurrence,
continue behind it; the first argument bounds the number of cuts. -/
def splitLoop (sep : Bytes) : Nat → Bytes → List Bytes
  | 0, s => [s]
  | n + 1, s =>
    match index s sep with
    | none => [s]
    | some m => s.take m :: splitLoop sep n (s.drop (m + sep.length))

/-- Go `strings.Split(s, sep)` for a non-empty `sep`. A string of length `n` has at most `n`
non-overlapping occurrences of `sep`, so `n` cuts suffice (`splitLoop_enough`). -/
def split (s sep : Bytes) : List Bytes :=
  splitLoop sep s.length s

/-- Go `strings.Join(elems, sep)`. -/
def join (elems : List Bytes) (sep : Bytes) : Bytes :=
  match elems with
  | [] => []
  | [e] => e
  | e :: rest => e ++ sep ++ join rest sep

/-! ## `acm.go` -/

/-- The string `"-----BEGIN CERTIFICATE-----\n"` (`b` in `separateCerts`), as bytes. -/
def marker : Bytes :=
  [45, 45, 45, 45, 45, 66, 69, 71, 73, 78, 32, 67, 69, 82, 84, 73, 70, 73, 67, 65, 84, 69,
   45, 45, 45, 45, 45, 10]

/-- Function `separateCerts` of `acm.go`. `str[1]` panics when the split has a single segment. -/
def separateCerts (name : String) (_ca crt key : Bytes) : Except Panic Certificate :=
  let b := marker
  let str := split crt b
  match str[1]? with
  | none => .error (.indexOutOfRange 1 str.length)
  | some s1 =>
    let nc := b ++ s1
    let ch := b ++ join (str.drop 2) b
    .ok { SecretName := name, Chain := ch, Certificate := nc, Key := key }

/-- Struct `acm.Tag`. -/
structure Tag where
  Key : String
  Value : String
deriving DecidableEq, Repr

/-- Struct `acm.ImportCertificateInput`; a nil `*string` is `none`, a nil slice is `[]`. -/
structure ImportCertificateInput where
  Certificate : Bytes
  CertificateArn : Option String
  CertificateChain : Bytes
  PrivateKey : Bytes
  Tags : List Tag
deriving DecidableEq, Repr

/-- Function `separateCertsACM` of `acm.go`. -/
def separateCertsACM (name : String) (ca crt key : Bytes) :
    Except Panic ImportCertificateInput :=
  match separateCerts name ca crt key with
  | .error p => .error p
  | .ok cert =>
    .ok { CertificateChain := cert.Chain, Certificate := cert.Certificate,
          PrivateKey := cert.Key, CertificateArn := none, Tags := [] }

/-! ## The collaborators -/

/-- A Go `error` value that is not nil. -/
abbrev GoError := String

/-- The remote calls the program makes, in the order it makes them. -/
inductive Event where
  /-- Call `svc.ImportCertificate(im)` of the ACM client. -/
  | importCertificate (im : ImportCertificateInput)
  /-- Call `k8sClient.CoreV1().Secrets(s.Namespace).Update(ctx, &s, uo)`. -/
  | secretUpdate (s : Secret)
  /-- Call `is.Get(ctx)` on the `IncapsulaSecret` of that name. -/
  | incapsulaGet (name : String)
  /-- Call `GetIncapsulaSiteStatus(is, siteID)`. -/
  | incapsulaSiteStatus (name siteID : String)
  /-- Call `UploadIncapsulaCert(is, c, siteID)`. -/
  | incapsulaUpload (name : String) (c : Certificate) (siteID : String)
deriving DecidableEq, Repr

/-- The answers of the collaborators. Each takes the history of calls made before it. The three
Incapsula helpers are declared outside `acm.go` and `main.go`; they are parameters here, and
`none` is a nil error. -/
structure Env where
  acmImportCertificate : List Event → ImportCertificateInput → Except GoError String
  secretsUpdate : List Event → Secret → Option GoError
  incapsulaGet : List Event → String → Option GoError
  getIncapsulaSiteStatus : List Event → String → String → Option GoError
  uploadIncapsulaCert : List Event → String → Certificate → String → Option GoError

/-- The mutable state: the global `cache` and the history of remote calls. -/
structure World where
  cache : List Certificate
  history : List Event
deriving DecidableEq, Repr

/-- How a function that returns an `error` ends: `nil`, a non-nil error, or a runtime panic. -/
inductive Outcome where
  | nil
  | err (e : GoError)
  | panic (p : Panic)
deriving DecidableEq, Repr

/-- Function `ImportCertificate` of `acm.go`: the request that goes out is `im`, with `CertificateArn`
overwritten only when `arn` is not empty. -/
def ImportCertificate (env : Env) (h : List Event) (im : ImportCertificateInput) (arn : String) :
    List Event × Except GoError String :=
  let im := if arn ≠ "" then { im with CertificateArn := some arn } else im
  (h ++ [.importCertificate im], env.acmImportCertificate h im)

/-! ## `main.go` -/

/-- Function `addToCache`: drop every entry of the same `SecretName`, append `c`. -/
def addToCache (cache : List Certificate) (c : Certificate) : List Certificate :=
  let nc := cache.filter (fun v => v.SecretName ≠ c.SecretName)
  nc ++ [c]

/-- Function `secretToCert`. -/
def secretToCert (s : Secret) : Except Panic Certificate :=
  separateCerts s.Name (s.data "ca.crt") (s.data "tls.crt") (s.data "tls.key")

/-- The `for _, v := range cache` loop of `cacheChanged`; `secretToCert(s)` is evaluated in
every iteration. -/
def cacheChangedLoop (s : Secret) : List Certificate → Except Panic Bool
  | [] => .ok false
  | v :: rest =>
    match secretToCert s with
    | .error p => .error p
    | .ok tc =>
      if v.SecretName = s.Name ∧ v.Certificate ≠ tc.Certificate then .ok true
      else cacheChangedLoop s rest

/-- Function `cacheChanged`. -/
def cacheChanged (cache : List Certificate) (s : Secret) : Except Panic Bool :=
  if cache.length = 0 then .ok true
  else cacheChangedLoop s cache

/-- The test of the inner loop of `getSecrets`: is the listed secret appended to `slo`? -/
def syncEnabled (operatorName : String) (s : Secret) : Bool :=
  if (s.data "tls.crt").length = 0 ∨ (s.data "tls.key").length = 0 then false
  else s.annotation (operatorName ++ "/sync-enabled") = "true"

/-- Function `getSecrets`, the loop over the namespaces `scsa`, with `slo` the secrets collected so far.
`list ns` is the answer of `Secrets(ns).List`; on a list error the function returns what it
has and the error. -/
def getSecrets (list : String → Except GoError (List Secret)) (operatorName : String) :
    List String → List Secret → List Secret × Option GoError
  | [], slo => (slo, none)
  | ns :: scsa, slo =>
    match list ns with
    | .error jerr => (slo, some jerr)
    | .ok items => getSecrets list operatorName scsa (slo ++ items.filter (syncEnabled operatorName))

/-- Function `ACMCerts`: the secrets annotated `acm-enabled` = "true" whose `cacheChanged` is true, in
order. `cacheChanged` is called only behind the annotation test (`&&`). -/
def ACMCerts (operatorName : String) (cache : List Certificate) :
    List Secret → Except Panic (List Secret)
  | [] => .ok []
  | v :: s =>
    if v.annotation (operatorName ++ "/acm-enabled") = "true" then
      match cacheChanged cache v with
      | .error p => .error p
      | .ok changed =>
        match ACMCerts operatorName cache s with
        | .error p => .error p
        | .ok ac => .ok (if changed then v :: ac else ac)
    else ACMCerts operatorName cache s

/-- Function `secretToACMInput`; its `error` result is always nil and is left out. -/
def secretToACMInput (operatorName : String) (s : Secret) :
    Except Panic ImportCertificateInput :=
  match separateCertsACM s.Name (s.data "ca.crt") (s.data "tls.crt") (s.data "tls.key") with
  | .error p => .error p
  | .ok im =>
    if s.annotation (operatorName ++ "/acm-certificate-arn") ≠ "" then
      .ok { im with CertificateArn := some (s.annotation (operatorName ++ "/acm-certificate-arn")) }
    else
      .ok { im with Tags := [{ Key := operatorName ++ "/secret-name", Value := s.Name }] }

/-- Function `replicateACMCert`: `CreateAWSSession` always returns a nil error, so what is
left is the call `ImportCertificate(sess, ai, "")` and the pass of its result. -/
def replicateACMCert (env : Env) (h : List Event) (ai : ImportCertificateInput) :
    List Event × Except GoError String :=
  match ImportCertificate env h ai "" with
  | (h1, .error cerr) => (h1, .error cerr)
  | (h1, .ok c) => (h1, .ok c)

/-- Map write `m[k] = v`. -/
def setKey (m : List (String × String)) (k v : String) : List (String × String) :=
  match m with
  | [] => [(k, v)]
  | (k1, v1) :: rest => if k1 = k then (k, v) :: rest else (k1, v1) :: setKey rest k v

/-- Function `handleACMCert`: build the request, import, write the returned ARN into the annotation
`acm-certificate-arn` and update the secret. (The map write panics on a nil map; a secret that
passed `ACMCerts` carries an annotation, so its map is not nil.) -/
def handleACMCert (env : Env) (operatorName : String) (h : List Event) (s : Secret) :
    List Event × Outcome :=
  match secretToACMInput operatorName s with
  | .error p => (h, .panic p)
  | .ok ai =>
    match replicateACMCert env h ai with
    | (h1, .error cerr) => (h1, .err cerr)
    | (h1, .ok certArn) =>
      let s1 : Secret :=
        { s with Annotations := setKey s.Annotations (operatorName ++ "/acm-certificate-arn") certArn }
      match env.secretsUpdate h1 s1 with
      | some uerr => (h1 ++ [.secretUpdate s1], .err uerr)
      | none => (h1 ++ [.secretUpdate s1], .nil)

/-- The `for _, s := range ss` loop of `handleACMCerts`. -/
def handleACMCertsLoop (env : Env) (operatorName : String) : World → List Secret → World × Outcome
  | w, [] => (w, .nil)
  | w, s :: ss =>
    match handleACMCert env operatorName w.history s with
    | (h1, .nil) =>
      match secretToCert s with
      | .error p => ({ w with history := h1 }, .panic p)
      | .ok c => handleACMCertsLoop env operatorName { cache := addToCache w.cache c, history := h1 } ss
    | (h1, out) => ({ w with history := h1 }, out)

/-- Function `handleACMCerts`. -/
def handleACMCerts (env : Env) (operatorName : String) (w : World) (ss : List Secret) :
    World × Outcome :=
  match ACMCerts operatorName w.cache ss with
  | .error p => (w, .panic p)
  | .ok ss => handleACMCertsLoop env operatorName w ss

/-- A certificate block: it begins with the marker and the marker occurs nowhere else in it. -/
def IsCertBlock (blk : Bytes) : Prop :=
  marker <+: blk ∧ ∀ pre suf : Bytes, blk = pre ++ marker ++ suf → pre = []

/-- The test for `IsCertBlock` that can be run (`IsCertBlock_of_isCertBlock`). -/
def isCertBlock (blk : Bytes) : Bool :=
  marker.isPrefixOf blk && (index (blk.drop marker.length) marker).isNone

/-! ## Sample values -/

/-- A secret annotated `op/sync-enabled` and `op/acm-enabled`, holding the bundle `crt`. -/
def acmSecret (ns name : String) (crt : Bytes) : Secret :=
  { Namespace := ns, Name := name,
    Annotations := [("op/sync-enabled", "true"), ("op/acm-enabled", "true")],
    Data := [("tls.crt", crt), ("tls.key", [9])] }

/-- A bundle of two blocks: the leaf with body `[leaf]`, one intermediate with body `[0]`. -/
def bundle2 (leaf : Nat) : Bytes :=
  marker ++ [leaf] ++ (marker ++ [0])

/-- The certificate that `separateCerts` returns on `bundle2 leaf` with key `[9]`. -/
def cert2 (name : String) (leaf : Nat) : Certificate :=
  { SecretName := name, Chain := marker ++ [0], Certificate := marker ++ [leaf], Key := [9] }

/-- Collaborators that accept every call, except that the ACM import and the Incapsula upload
of a certificate whose leaf is `marker ++ [leaf]` fail with the error "denied". -/
def denyLeaf (leaf : Nat) : Env :=
  { acmImportCertificate := fun _ im =>
      if im.Certificate = marker ++ [leaf] then .error "denied" else .ok "arn:aws:acm:123"
    secretsUpdate := fun _ _ => none
    incapsulaGet := fun _ _ => none
    getIncapsulaSiteStatus := fun _ _ _ => none
    uploadIncapsulaCert := fun _ _ c _ =>
      if c.Certificate = marker ++ [leaf] then some "denied" else none }

/-- The secrets of the filtering scenario: "a" is sync-enabled and acm-enabled, "b" is
sync-enabled only, "c" is acm-enabled only. -/
def filteringSecrets : List Secret :=
  [ acmSecret "default" "a" (bundle2 1),
    { Namespace := "default", Name := "b", Annotations := [("op/sync-enabled", "true")],
      Data := [("tls.crt", bundle2 2), ("tls.key", [9])] },
    { Namespace := "default", Name := "c", Annotations := [("op/acm-enabled", "true")],
      Data := [("tls.crt", bundle2 3), ("tls.key", [9])] } ]

/-- A separator with no border: no proper non-empty suffix of it is a prefix of it. -/
def Unbordered (sep : Bytes) : Prop :=
  ∀ x y : Bytes, x ≠ [] → y ≠ [] → sep = x ++ y → ¬ y <+: sep

/-! ## Lemmas on `index`, `split` and `join` -/

theorem marker_eq_literal :
    marker = "-----BEGIN CERTIFICATE-----\n".toList.map Char.toNat := by decide

theorem marker_ne_nil : marker ≠ [] := by decide

/-- No proper non-empty suffix of the marker is a prefix of it. -/
theorem marker_unbordered (x y : Bytes) (hx : x ≠ []) (hy : y ≠ [])
    (h : marker = x ++ y) : ¬ y <+: marker := by
  have key : ∀ k < 28, 0 < k → ¬ ((marker.drop k).isPrefixOf marker = true) := by decide
  have hlen : x.length + y.length = 28 := by
    have := congrArg List.length h
    simp only [List.length_append] at this
    rw [← this]; rfl
  have hxl : 0 < x.length := List.length_pos.mpr hx
  have hyl : 0 < y.length := List.length_pos.mpr hy
  have hd : marker.drop x.length = y := by rw [h, List.drop_left]
  intro hp
  apply key x.length (by omega) hxl
  rw [hd]
  exact List.isPrefixOf_iff_prefix.mpr hp

theorem index_eq_none (sep s : Bytes) (h : ¬ sep <:+: s) : index s sep = none := by
  induction s with
  | nil =>
    unfold index
    have : ¬ sep.isPrefixOf [] = true := fun hp =>
      h (List.isPrefixOf_iff_prefix.mp hp).isInfix
    simp [this]
  | cons c t ih =>
    unfold index
    have hp : ¬ sep.isPrefixOf (c :: t) = true := fun hp =>
      h (List.isPrefixOf_iff_prefix.mp hp).isInfix
    have ht : ¬ sep <:+: t := fun hi => h (hi.trans (List.suffix_cons c t).isInfix)
    simp [hp, ih ht]

theorem index_of_infix (sep s : Bytes) (h : sep <:+: s) : ∃ m, index s sep = some m := by
  induction s with
  | nil =>
    have : sep = [] := List.eq_nil_of_infix_nil h
    subst this
    exact ⟨0, by unfold index; simp⟩
  | cons c t ih =>
    unfold index
    by_cases hp : sep.isPrefixOf (c :: t) = true
    · exact ⟨0, by simp [hp]⟩
    · have hnp : ¬ sep <+: c :: t := fun hq => hp (List.isPrefixOf_iff_prefix.mpr hq)
      rcases List.infix_cons_iff.mp h with h1 | h1
      · exact absurd h1 hnp
      · obtain ⟨m, hm⟩ := ih h1
        exact ⟨m + 1, by simp [hp, hm]⟩

/-- Go `strings.Contains(s, sep)` in terms of `index`. -/
theorem index_isSome_iff (sep s : Bytes) : (index s sep).isSome = true ↔ sep <:+: s := by
  constructor
  · intro h
    by_contra hn
    rw [index_eq_none sep s hn] at h
    simp at h
  · intro h
    obtain ⟨m, hm⟩ := index_of_infix sep s h
    simp [hm]

theorem not_isPrefixOf_of_unbordered (sep : Bytes) (hU : Unbordered sep) (body rest : Bytes)
    (hb : body ≠ []) (h : ¬ sep <:+: body) : ¬ sep <+: body ++ sep ++ rest := by
  intro hp
  have hbp : body <+: body ++ sep ++ rest := by
    rw [List.append_assoc]; exact List.prefix_append _ _
  by_cases hl : sep.length ≤ body.length
  · exact h (List.prefix_of_prefix_length_le hp hbp hl).isInfix
  · have hlt : body.length ≤ sep.length := by omega
    obtain ⟨y, hy⟩ := List.prefix_of_prefix_length_le hbp hp hlt
    have hyne : y ≠ [] := by
      rintro rfl
      have := congrArg List.length hy
      simp at this
      omega
    have hyl : y.length ≤ sep.length := by
      have := congrArg List.length hy
      simp at this
      omega
    have hy2 : y <+: sep ++ rest := by
      have : body ++ y <+: body ++ (sep ++ rest) := by
        rw [hy, ← List.append_assoc]; exact hp
      exact (List.prefix_append_right_inj body).mp this
    have hy3 : y <+: sep := List.prefix_of_prefix_length_le hy2 (List.prefix_append _ _) hyl
    exact hU body y hb hyne hy.symm hy3

/-- In `body ++ sep ++ rest` with `sep` absent from `body`, the leftmost occurrence of `sep`
is the one written out. -/
theorem index_append (sep : Bytes) (hU : Unbordered sep) (body rest : Bytes)
    (h : ¬ sep <:+: body) : index (body ++ sep ++ rest) sep = some body.length := by
  induction body with
  | nil =>
    unfold index
    have : sep.isPrefixOf ([] ++ sep ++ rest) = true :=
      List.isPrefixOf_iff_prefix.mpr (by simp)
    simp [this]
  | cons c t ih =>
    have hnp : ¬ sep.isPrefixOf (c :: t ++ sep ++ rest) = true := fun hp =>
      not_isPrefixOf_of_unbordered sep hU (c :: t) rest (by simp) h
        (List.isPrefixOf_iff_prefix.mp hp)
    have ht : ¬ sep <:+: t := fun hi => h (hi.trans (List.suffix_cons c t).isInfix)
    unfold index
    rw [if_neg hnp]
    simp only [List.cons_append]
    have := ih ht
    simp only [List.append_assoc] at this
    simp [this]

/-- Splitting `s0 ++ sep ++ s1 ++ sep ++ s2 ...` gives back `s0, s1, s2, ...` when no segment
contains the separator. -/
theorem splitLoop_segments (sep : Bytes) (hU : Unbordered sep) (segs : List Bytes) :
    ∀ (s0 : Bytes) (n : Nat), (∀ s ∈ segs, ¬ sep <:+: s) → ¬ sep <:+: s0 → segs.length ≤ n →
      splitLoop sep n (s0 ++ (segs.map (sep ++ ·)).flatten) = s0 :: segs := by
  induction segs with
  | nil =>
    intro s0 n _ h0 _
    cases n with
    | zero => simp [splitLoop]
    | succ n => simp [splitLoop, index_eq_none sep s0 h0]
  | cons s1 segs ih =>
    intro s0 n hfree h0 hn
    cases n with
    | zero => simp at hn
    | succ n =>
      have hidx : index (s0 ++ ((s1 :: segs).map (sep ++ ·)).flatten) sep = some s0.length := by
        have := index_append sep hU s0 (s1 ++ (segs.map (sep ++ ·)).flatten) h0
        simpa [List.append_assoc] using this
      have h1 : ¬ sep <:+: s1 := hfree s1 (List.mem_cons_self _ _)
      have hrest : ∀ s ∈ segs, ¬ sep <:+: s := fun s hs => hfree s (List.mem_cons_of_mem _ hs)
      have hlen : segs.length ≤ n := by simpa using hn
      have htake : List.take s0.length (s0 ++ ((s1 :: segs).map (sep ++ ·)).flatten) = s0 :=
        List.take_left _ _
      have hdrop : List.drop (s0.length + sep.length)
          (s0 ++ ((s1 :: segs).map (sep ++ ·)).flatten)
          = s1 ++ (segs.map (sep ++ ·)).flatten := by
        rw [← List.drop_drop, List.drop_left]
        simp only [List.map_cons, List.flatten_cons, List.append_assoc]
        exact List.drop_left _ _
      rw [splitLoop, hidx]
      simp only [htake, hdrop]
      rw [ih s1 n hrest h1 hlen]

theorem length_le_flatten_map (sep : Bytes) (hsep : sep ≠ []) (segs : List Bytes) :
    segs.length ≤ ((segs.map (sep ++ ·)).flatten).length := by
  induction segs with
  | nil => simp
  | cons s segs ih =>
    have : 0 < sep.length := List.length_pos.mpr hsep
    simp only [List.map_cons, List.flatten_cons, List.length_append, List.length_cons]
    omega

theorem split_segments (sep : Bytes) (hU : Unbordered sep) (hsep : sep ≠ [])
    (s0 : Bytes) (segs : List Bytes) (hfree : ∀ s ∈ segs, ¬ sep <:+: s) (h0 : ¬ sep <:+: s0) :
    split (s0 ++ (segs.map (sep ++ ·)).flatten) sep = s0 :: segs := by
  unfold split
  apply splitLoop_segments sep hU segs s0 _ hfree h0
  have := length_le_flatten_map sep hsep segs
  simp only [List.length_append]
  omega

/-- A string without the separator is not cut. -/
theorem split_of_not_infix (sep s : Bytes) (h : ¬ sep <:+: s) : split s sep = [s] := by
  unfold split
  cases hs : s.length with
  | zero => simp [splitLoop]
  | succ n => simp [splitLoop, index_eq_none sep s h]

theorem join_cons_eq_flatten (sep : Bytes) (rs : List Bytes) :
    ∀ r : Bytes, sep ++ join (r :: rs) sep = ((r :: rs).map (sep ++ ·)).flatten := by
  induction rs with
  | nil => intro r; simp [join]
  | cons r2 rs ih =>
    intro r
    have := ih r2
    simp only [List.map_cons, List.flatten_cons] at this ⊢
    rw [← this]
    simp [join, List.append_assoc]

theorem marker_Unbordered : Unbordered marker := marker_unbordered

theorem IsCertBlock.body {blk : Bytes} (h : IsCertBlock blk) :
    blk = marker ++ blk.drop marker.length ∧ ¬ marker <:+: blk.drop marker.length := by
  obtain ⟨⟨body, hb⟩, hu⟩ := h
  subst hb
  rw [List.drop_left]
  refine ⟨rfl, ?_⟩
  rintro ⟨p, q, hpq⟩
  have := hu (marker ++ p) q (by rw [← hpq]; simp [List.append_assoc])
  exact marker_ne_nil (List.append_eq_nil.mp this).1

theorem blocks_eq_map (blocks : List Bytes) (h : ∀ blk ∈ blocks, IsCertBlock blk) :
    blocks = (blocks.map (·.drop marker.length)).map (marker ++ ·) := by
  induction blocks with
  | nil => rfl
  | cons b bs ih =>
    have hb := (h b (List.mem_cons_self _ _)).body.1
    have := ih (fun blk hblk => h blk (List.mem_cons_of_mem _ hblk))
    simp only [List.map_cons, List.map_map] at this ⊢
    rw [← this, ← hb]

/-- What `separateCerts` computes on a bundle written as marker-prefixed bodies. -/
theorem separateCerts_bodies (name : String) (ca key : Bytes) (b1 : Bytes) (rest : List Bytes)
    (hfree : ∀ s ∈ b1 :: rest, ¬ marker <:+: s) :
    separateCerts name ca (((b1 :: rest).map (marker ++ ·)).flatten) key
      = .ok { SecretName := name, Chain := marker ++ join rest marker,
              Certificate := marker ++ b1, Key := key } := by
  have hnil : ¬ marker <:+: ([] : Bytes) := fun h => marker_ne_nil (List.eq_nil_of_infix_nil h)
  have hs := split_segments marker marker_Unbordered marker_ne_nil [] (b1 :: rest) hfree hnil
  simp only [List.nil_append] at hs
  unfold separateCerts
  simp only [hs]
  simp

/-- With no marker in the bundle, `str[1]` is out of range. -/
theorem separateCerts_no_marker (name : String) (ca crt key : Bytes) (h : ¬ marker <:+: crt) :
    separateCerts name ca crt key = .error (.indexOutOfRange 1 1) := by
  simp [separateCerts, split_of_not_infix marker crt h]


theorem index_nil_eq_none (sep : Bytes) (hsep : sep ≠ []) : index [] sep = none :=
  index_eq_none sep [] (fun h => hsep (List.eq_nil_of_infix_nil h))

/-- Every bound at least the length of the string gives the same split: the bound of `split`
is never the reason the loop stops. -/
theorem splitLoop_enough (sep : Bytes) (hsep : sep ≠ []) (n : Nat) :
    ∀ (m : Nat) (s : Bytes), s.length ≤ n → s.length ≤ m →
      splitLoop sep n s = splitLoop sep m s := by
  induction n with
  | zero =>
    intro m s hn _
    have hs : s = [] := List.length_eq_zero.mp (by omega)
    subst hs
    cases m with
    | zero => rfl
    | succ m => simp [splitLoop, index_nil_eq_none sep hsep]
  | succ n ih =>
    intro m s hn hm
    cases m with
    | zero =>
      have hs : s = [] := List.length_eq_zero.mp (by omega)
      subst hs
      simp [splitLoop, index_nil_eq_none sep hsep]
    | succ m =>
      cases hi : index s sep with
      | none => simp [splitLoop, hi]
      | some k =>
        have hpos : 0 < sep.length := List.length_pos.mpr hsep
        have hl : (s.drop (k + sep.length)).length ≤ s.length - 1 := by
          rw [List.length_drop]; omega
        have hne : s ≠ [] := by
          rintro rfl
          rw [index_nil_eq_none sep hsep] at hi
          exact Option.noConfusion hi
        have hspos : 0 < s.length := List.length_pos.mpr hne
        simp only [splitLoop, hi]
        rw [ih m (s.drop (k + sep.length)) (by omega) (by omega)]

theorem IsCertBlock_of_isCertBlock (blk : Bytes) (h : isCertBlock blk = true) :
    IsCertBlock blk := by
  unfold isCertBlock at h
  rw [Bool.and_eq_true] at h
  obtain ⟨hp, hi⟩ := h
  have hpre : marker <+: blk := List.isPrefixOf_iff_prefix.mp hp
  refine ⟨hpre, ?_⟩
  obtain ⟨body, hb⟩ := hpre
  subst hb
  rw [List.drop_left] at hi
  have hfree : ¬ marker <:+: body := by
    intro hin
    have := (index_isSome_iff marker body).mpr hin
    rw [Option.isNone_iff_eq_none] at hi
    rw [hi] at this
    exact Bool.noConfusion this
  intro pre suf heq
  by_contra hne
  by_cases hl : marker.length ≤ pre.length
  · have h1 : marker <+: pre := by
      apply List.prefix_of_prefix_length_le (List.prefix_append marker body) _ hl
      rw [heq, List.append_assoc]
      exact List.prefix_append _ _
    obtain ⟨p, hp2⟩ := h1
    subst hp2
    apply hfree
    have : body = p ++ marker ++ suf := by
      have h2 : marker ++ body = marker ++ (p ++ marker ++ suf) := by
        rw [heq]; simp [List.append_assoc]
      exact List.append_cancel_left h2
    rw [this]
    exact List.infix_append _ _ _
  · have hnin : ¬ marker <:+: pre := by
      intro hin
      have := hin.length_le
      omega
    apply not_isPrefixOf_of_unbordered marker marker_Unbordered pre suf hne hnin
    rw [← heq]
    exact List.prefix_append _ _

/-- On a bundle of a single block the chain is the bare marker. -/
theorem separateCerts_single (name : String) (ca key body : Bytes) (h : ¬ marker <:+: body) :
    separateCerts name ca (marker ++ body) key
      = .ok { SecretName := name, Chain := marker, Certificate := marker ++ body, Key := key } := by
  have := separateCerts_bodies name ca key body [] (by simpa using h)
  simpa [join] using this

/-! ## Lemmas on the cache -/

theorem separateCerts_SecretName (name : String) (ca crt key : Bytes) (c : Certificate)
    (h : separateCerts name ca crt key = .ok c) : c.SecretName = name := by
  simp only [separateCerts] at h
  split at h
  · exact Except.noConfusion h
  · injection h with h
    rw [← h]

theorem secretToCert_SecretName (s : Secret) (c : Certificate) (h : secretToCert s = .ok c) :
    c.SecretName = s.Name :=
  separateCerts_SecretName _ _ _ _ c h

/-- The loop of `cacheChanged` on a secret whose bundle decomposes: is there an entry of the
secret's name with other `Certificate` bytes? -/
theorem cacheChangedLoop_ok (s : Secret) (tc : Certificate) (hs : secretToCert s = .ok tc)
    (cache : List Certificate) :
    cacheChangedLoop s cache
      = .ok (cache.any (fun v => decide (v.SecretName = s.Name ∧ v.Certificate ≠ tc.Certificate))) := by
  induction cache with
  | nil => rfl
  | cons v rest ih =>
    simp only [cacheChangedLoop, hs, List.any_cons]
    by_cases hv : v.SecretName = s.Name ∧ v.Certificate ≠ tc.Certificate
    · simp [hv]
    · rw [if_neg hv, ih]
      simp [hv]

/-- The loop of `cacheChanged` on a secret whose bundle does not decompose panics in its first
iteration. -/
theorem cacheChangedLoop_panic (s : Secret) (p : Panic) (hs : secretToCert s = .error p)
    (cache : List Certificate) (hne : cache ≠ []) : cacheChangedLoop s cache = .error p := by
  cases cache with
  | nil => exact absurd rfl hne
  | cons v rest => simp only [cacheChangedLoop, hs]

theorem addToCache_ne_nil (cache : List Certificate) (c : Certificate) :
    addToCache cache c ≠ [] := by
  simp [addToCache]

theorem cacheChanged_of_ne_nil (cache : List Certificate) (s : Secret) (hne : cache ≠ []) :
    cacheChanged cache s = cacheChangedLoop s cache := by
  unfold cacheChanged
  have : cache.length ≠ 0 := fun h => hne (List.length_eq_zero.mp h)
  rw [if_neg this]

/-- After `addToCache` of `c`, `cacheChanged` for a secret of the same name compares the
secret's leaf with the leaf of `c`. -/
theorem cacheChanged_addToCache_same (cache : List Certificate) (c : Certificate) (s : Secret)
    (tc : Certificate) (hs : secretToCert s = .ok tc) (hid : s.Name = c.SecretName) :
    cacheChanged (addToCache cache c) s = .ok (decide (tc.Certificate ≠ c.Certificate)) := by
  rw [cacheChanged_of_ne_nil _ _ (addToCache_ne_nil cache c), cacheChangedLoop_ok s tc hs]
  congr 1
  unfold addToCache
  rw [List.any_append]
  have h1 : (cache.filter (fun v => decide (v.SecretName ≠ c.SecretName))).any
      (fun v => decide (v.SecretName = s.Name ∧ v.Certificate ≠ tc.Certificate)) = false := by
    rw [List.any_eq_false]
    intro v hv
    have := (List.mem_filter.mp hv).2
    simp only [decide_eq_true_eq] at this
    simp [hid, this]
  rw [h1]
  by_cases hc : tc.Certificate = c.Certificate
  · simp [hc]
  · have hc2 : ¬ c.Certificate = tc.Certificate := fun h => hc h.symm
    simp [hc, hc2, hid]

/-- Recording `c` leaves `cacheChanged` as it was for a secret of another name, when the cache
already held an entry. -/
theorem cacheChanged_addToCache_other (cache : List Certificate) (c : Certificate) (s : Secret)
    (hne : s.Name ≠ c.SecretName) (hcache : cache ≠ []) :
    cacheChanged (addToCache cache c) s = cacheChanged cache s := by
  rw [cacheChanged_of_ne_nil _ _ (addToCache_ne_nil cache c), cacheChanged_of_ne_nil _ _ hcache]
  cases hs : secretToCert s with
  | error p =>
    rw [cacheChangedLoop_panic s p hs _ (addToCache_ne_nil cache c),
      cacheChangedLoop_panic s p hs _ hcache]
  | ok tc =>
    rw [cacheChangedLoop_ok s tc hs, cacheChangedLoop_ok s tc hs]
    congr 1
    unfold addToCache
    rw [List.any_append, List.any_filter]
    have h1 : ([c].any fun v => decide (v.SecretName = s.Name ∧ v.Certificate ≠ tc.Certificate))
        = false := by
      have : ¬ c.SecretName = s.Name := fun h => hne h.symm
      simp [this]
    rw [h1, Bool.or_false]
    apply congrArg (fun f => cache.any f)
    funext v
    by_cases hv : v.SecretName = s.Name
    · have : ¬ v.SecretName = c.SecretName := fun h => hne (hv.symm.trans h)
      simp [hv, hne]
    · simp [hv]

theorem filter_name_addToCache (cache : List Certificate) (c : Certificate) (name : String)
    (hne : name ≠ c.SecretName) :
    (addToCache cache c).filter (fun v => decide (v.SecretName = name))
      = cache.filter (fun v => decide (v.SecretName = name)) := by
  unfold addToCache
  rw [List.filter_append, List.filter_filter]
  have h1 : [c].filter (fun v => decide (v.SecretName = name)) = [] := by
    have : ¬ c.SecretName = name := fun h => hne h.symm
    simp [this]
  rw [h1, List.append_nil]
  apply List.filter_congr
  intro v _
  by_cases hv : v.SecretName = name
  · simp [hv, hne]
  · simp [hv]

/-! ## Lemmas on the selection -/

theorem getSecrets_ok (list : String → Except GoError (List Secret)) (items : String → List Secret)
    (op : String) (scsa : List String) :
    ∀ slo : List Secret, (∀ ns ∈ scsa, list ns = .ok (items ns)) →
      getSecrets list op scsa slo
        = (slo ++ (scsa.map items).flatten.filter (syncEnabled op), none) := by
  induction scsa with
  | nil => intro slo _; simp [getSecrets]
  | cons ns scsa ih =>
    intro slo h
    have h1 : list ns = .ok (items ns) := h ns (List.mem_cons_self _ _)
    have h2 : ∀ n ∈ scsa, list n = .ok (items n) := fun n hn => h n (List.mem_cons_of_mem _ hn)
    simp only [getSecrets, h1]
    rw [ih _ h2]
    simp [List.filter_append, List.append_assoc]

theorem ACMCerts_ok (op : String) (cache : List Certificate) (ss : List Secret)
    (h : ∀ s ∈ ss, s.annotation (op ++ "/acm-enabled") = "true" →
      ∃ b, cacheChanged cache s = .ok b) :
    ACMCerts op cache ss
      = .ok (ss.filter (fun s => decide (s.annotation (op ++ "/acm-enabled") = "true" ∧
          cacheChanged cache s = .ok true))) := by
  induction ss with
  | nil => rfl
  | cons v ss ih =>
    have ih1 := ih (fun s hs => h s (List.mem_cons_of_mem _ hs))
    unfold ACMCerts
    by_cases ha : v.annotation (op ++ "/acm-enabled") = "true"
    · obtain ⟨b, hb⟩ := h v (List.mem_cons_self _ _) ha
      rw [if_pos ha, hb, ih1]
      cases b <;> simp [List.filter_cons, ha, hb]
    · rw [if_neg ha, ih1]
      simp [List.filter_cons, ha]

theorem syncEnabled_eq (op : String) (s : Secret) :
    syncEnabled op s = decide (s.data "tls.crt" ≠ [] ∧ s.data "tls.key" ≠ [] ∧
      s.annotation (op ++ "/sync-enabled") = "true") := by
  unfold syncEnabled
  by_cases h1 : s.data "tls.crt" = []
  · simp [h1]
  · by_cases h2 : s.data "tls.key" = []
    · simp [h2]
    · simp [h1, h2]

/-! ## Lemmas on the batch loops -/

/-- C1: for a bundle that is the concatenation of N ≥ 2 certificate blocks, each beginning with
the marker and containing no other occurrence of it, `separateCerts` returns a certificate whose
`Certificate` is the first block and whose `Chain` is the concatenation of the blocks 2..N, so
that `Certificate` followed by `Chain` is the bundle. -/
theorem separateCerts_bundle (name : String) (ca key : Bytes) (blocks : List Bytes)
    (hN : 2 ≤ blocks.length) (hblk : ∀ blk ∈ blocks, IsCertBlock blk) :
    ∃ c, separateCerts name ca blocks.flatten key = .ok c ∧
      blocks.head? = some c.Certificate ∧ c.Chain = blocks.tail.flatten ∧
      c.SecretName = name ∧ c.Key = key ∧
      c.Certificate ++ c.Chain = blocks.flatten := by
  match blocks, hN, hblk with
  | blk1 :: blk2 :: more, _, hblk =>
    have hmap := blocks_eq_map (blk1 :: blk2 :: more) hblk
    have hfree : ∀ s ∈ (blk1 :: blk2 :: more).map (·.drop marker.length), ¬ marker <:+: s := by
      intro s hs
      obtain ⟨blk, hmem, rfl⟩ := List.mem_map.mp hs
      exact (hblk blk hmem).body.2
    have hsep := separateCerts_bodies name ca key (blk1.drop marker.length)
      ((blk2 :: more).map (·.drop marker.length)) (by simpa using hfree)
    have hjoin := join_cons_eq_flatten marker (more.map (·.drop marker.length))
      (blk2.drop marker.length)
    have h1 := (hblk blk1 (by simp)).body.1
    have htail : ((blk2 :: more).map (·.drop marker.length)).map (marker ++ ·) = blk2 :: more := by
      have := blocks_eq_map (blk2 :: more) (fun b hb => hblk b (List.mem_cons_of_mem _ hb))
      exact this.symm
    have hsep1 : separateCerts name ca (blk1 :: blk2 :: more).flatten key
        = .ok { SecretName := name,
                Chain := marker ++ join ((blk2 :: more).map (·.drop marker.length)) marker,
                Certificate := marker ++ blk1.drop marker.length, Key := key } := by
      have e : (blk1 :: blk2 :: more).flatten
          = (((blk1.drop marker.length) :: (blk2 :: more).map (·.drop marker.length)).map
              (marker ++ ·)).flatten := by
        conv_lhs => rw [hmap]
        rfl
      rw [e]; exact hsep
    refine ⟨_, hsep1, ?_, ?_, rfl, rfl, ?_⟩
    · simp only [List.head?_cons]; rw [← h1]
    · simp only [List.tail_cons]
      exact hjoin.trans (congrArg List.flatten htail)
    · simp only [List.flatten_cons]
      rw [← h1]
      congr 1
      exact hjoin.trans (congrArg List.flatten htail)

/-- A bundle of two blocks decomposes into leaf and chain. -/
theorem separateCerts_bundle_witness :
    (2 ≤ [marker ++ [1, 2], marker ++ [3]].length ∧
      ∀ blk ∈ [marker ++ [1, 2], marker ++ [3]], IsCertBlock blk) ∧
    ∃ c, separateCerts "web-tls" [] [marker ++ [1, 2], marker ++ [3]].flatten [9] = .ok c ∧
      [marker ++ [1, 2], marker ++ [3]].head? = some c.Certificate ∧
      c.Chain = [marker ++ [1, 2], marker ++ [3]].tail.flatten ∧
      c.SecretName = "web-tls" ∧ c.Key = [9] ∧
      c.Certificate ++ c.Chain = [marker ++ [1, 2], marker ++ [3]].flatten :=
  have hblk : ∀ blk ∈ [marker ++ [1, 2], marker ++ [3]], IsCertBlock blk := fun blk hmem =>
    IsCertBlock_of_isCertBlock blk
      ((by decide : ∀ b ∈ [marker ++ [1, 2], marker ++ [3]], isCertBlock b = true) blk hmem)
  ⟨⟨by decide, hblk⟩, separateCerts_bundle "web-tls" [] [9] _ (by decide) hblk⟩

/-- C2 (the code differs): on the bundle of the single block `marker ++ [77]`, a certificate
block, `separateCerts` returns the whole bundle as `Certificate`, and as `Chain` the 28 bytes of
the marker, not the empty byte sequence. -/
theorem separateCerts_single_block_chain :
    IsCertBlock (marker ++ [77]) ∧
    separateCerts "web-tls" [] (marker ++ [77]) [9]
      = .ok { SecretName := "web-tls", Chain := marker, Certificate := marker ++ [77],
              Key := [9] } ∧
    marker ≠ [] :=
  ⟨IsCertBlock_of_isCertBlock _ (by decide), by decide, by decide⟩

/-- C3 (the code differs): on the bundle `"x"`, which holds no marker, `separateCerts` panics
with index out of range, and so does `handleACMCerts` on a secret with that bundle: no error is
returned for the secret. -/
theorem separateCerts_no_marker_panics :
    ¬ marker <:+: [120] ∧
    separateCerts "web-tls" [] [120] [9] = .error (.indexOutOfRange 1 1) ∧
    ∀ env : Env,
      handleACMCerts env "op" { cache := [], history := [] }
        [{ Namespace := "default", Name := "web-tls",
           Annotations := [("op/sync-enabled", "true"), ("op/acm-enabled", "true")],
           Data := [("tls.crt", [120]), ("tls.key", [9])] }]
        = ({ cache := [], history := [] }, .panic (.indexOutOfRange 1 1)) := by
  refine ⟨?_, by decide, fun env => ?_⟩
  · intro h
    have := h.length_le
    simp [marker] at this
  · rfl

/-- C4 (the code differs): with the cache holding an entry for the secret "a" only, `cacheChanged`
for the secret "b", whose bundle is well-formed and whose identity was never recorded, is
false. -/
theorem cacheChanged_unrecorded_identity :
    secretToCert (acmSecret "default" "b" (bundle2 2)) = .ok (cert2 "b" 2) ∧
    (∀ v ∈ [cert2 "a" 1], v.SecretName ≠ (acmSecret "default" "b" (bundle2 2)).Name) ∧
    cacheChanged [cert2 "a" 1] (acmSecret "default" "b" (bundle2 2)) = .ok false := by
  decide

/-- C5: after `addToCache` of a certificate `c`, once or repeatedly, `cacheChanged` for a
secret of the identity of `c` whose bundle decomposes with leaf `tc.Certificate` returns true
exactly when that leaf differs from the leaf of `c`; it is false for the leaf of `c` itself, and
after a later `addToCache` of the same identity with another leaf it is true for the old leaf. -/
theorem cacheChanged_after_addToCache (cache : List Certificate) (c : Certificate) (s : Secret)
    (tc : Certificate) (n : Nat) (hs : secretToCert s = .ok tc) (hid : s.Name = c.SecretName) :
    cacheChanged ((fun k => addToCache k c)^[n + 1] cache) s
        = .ok (decide (tc.Certificate ≠ c.Certificate)) ∧
    (tc.Certificate = c.Certificate →
      cacheChanged ((fun k => addToCache k c)^[n + 1] cache) s = .ok false ∧
      ∀ c2 : Certificate, c2.SecretName = c.SecretName → c2.Certificate ≠ c.Certificate →
        cacheChanged (addToCache ((fun k => addToCache k c)^[n + 1] cache) c2) s = .ok true) := by
  have h1 : cacheChanged ((fun k => addToCache k c)^[n + 1] cache) s
      = .ok (decide (tc.Certificate ≠ c.Certificate)) := by
    rw [Function.iterate_succ_apply']
    exact cacheChanged_addToCache_same _ c s tc hs hid
  refine ⟨h1, fun heq => ⟨?_, fun c2 hname hleaf => ?_⟩⟩
  · rw [h1]; simp [heq]
  · rw [cacheChanged_addToCache_same _ c2 s tc hs (hid.trans hname.symm)]
    have : tc.Certificate ≠ c2.Certificate := fun h => hleaf (h.symm.trans heq)
    simp [this]

/-- The secret "a" recorded twice on top of an older entry. -/
theorem cacheChanged_after_addToCache_witness :
    (secretToCert (acmSecret "default" "a" (bundle2 1)) = .ok (cert2 "a" 1) ∧
      (acmSecret "default" "a" (bundle2 1)).Name = (cert2 "a" 1).SecretName) ∧
    (cacheChanged ((fun k => addToCache k (cert2 "a" 1))^[1 + 1] [cert2 "a" 5, cert2 "b" 2])
        (acmSecret "default" "a" (bundle2 1))
        = .ok (decide ((cert2 "a" 1).Certificate ≠ (cert2 "a" 1).Certificate)) ∧
    ((cert2 "a" 1).Certificate = (cert2 "a" 1).Certificate →
      cacheChanged ((fun k => addToCache k (cert2 "a" 1))^[1 + 1] [cert2 "a" 5, cert2 "b" 2])
        (acmSecret "default" "a" (bundle2 1)) = .ok false ∧
      ∀ c2 : Certificate, c2.SecretName = (cert2 "a" 1).SecretName →
        c2.Certificate ≠ (cert2 "a" 1).Certificate →
        cacheChanged (addToCache
          ((fun k => addToCache k (cert2 "a" 1))^[1 + 1] [cert2 "a" 5, cert2 "b" 2]) c2)
          (acmSecret "default" "a" (bundle2 1)) = .ok true)) :=
  ⟨⟨by decide, by decide⟩,
    cacheChanged_after_addToCache [cert2 "a" 5, cert2 "b" 2] (cert2 "a" 1)
      (acmSecret "default" "a" (bundle2 1)) (cert2 "a" 1) 1 (by decide) (by decide)⟩

/-- C10, as stated, fails: the secrets `prod/web-tls` and `staging/web-tls` have the same name,
other namespaces and other leaves. With `prod/web-tls` recorded, recording `staging/web-tls`
removes the entry of `prod/web-tls` and turns its `cacheChanged` from false to true. -/
theorem addToCache_same_name_other_namespace :
    (acmSecret "prod" "web-tls" (bundle2 1)).Name = (acmSecret "staging" "web-tls" (bundle2 2)).Name ∧
    (acmSecret "prod" "web-tls" (bundle2 1)).Namespace
      ≠ (acmSecret "staging" "web-tls" (bundle2 2)).Namespace ∧
    secretToCert (acmSecret "prod" "web-tls" (bundle2 1)) = .ok (cert2 "web-tls" 1) ∧
    secretToCert (acmSecret "staging" "web-tls" (bundle2 2)) = .ok (cert2 "web-tls" 2) ∧
    cert2 "web-tls" 1 ∈ addToCache [] (cert2 "web-tls" 1) ∧
    cert2 "web-tls" 1 ∉ addToCache (addToCache [] (cert2 "web-tls" 1)) (cert2 "web-tls" 2) ∧
    cacheChanged (addToCache [] (cert2 "web-tls" 1)) (acmSecret "prod" "web-tls" (bundle2 1))
      = .ok false ∧
    cacheChanged (addToCache (addToCache [] (cert2 "web-tls" 1)) (cert2 "web-tls" 2))
      (acmSecret "prod" "web-tls" (bundle2 1)) = .ok true := by
  decide

/-- C10, amended: the identity of a cache entry is the secret's name. For two secrets of
different names, recording the certificate of one keeps the cache entries under the other's
name as they are and, when the cache already held an entry, leaves `cacheChanged` for the other
unchanged. -/
theorem addToCache_other_name (cache : List Certificate) (s1 s2 : Secret) (c2 : Certificate)
    (hc : secretToCert s2 = .ok c2) (hne : s1.Name ≠ s2.Name) :
    (addToCache cache c2).filter (fun v => decide (v.SecretName = s1.Name))
        = cache.filter (fun v => decide (v.SecretName = s1.Name)) ∧
    (cache ≠ [] → cacheChanged (addToCache cache c2) s1 = cacheChanged cache s1) := by
  have hname : s1.Name ≠ c2.SecretName := by
    rw [secretToCert_SecretName s2 c2 hc]; exact hne
  exact ⟨filter_name_addToCache cache c2 s1.Name hname,
    cacheChanged_addToCache_other cache c2 s1 hname⟩

/-- Recording the secret "b" next to the entry of the secret "a". -/
theorem addToCache_other_name_witness :
    (secretToCert (acmSecret "default" "b" (bundle2 2)) = .ok (cert2 "b" 2) ∧
      (acmSecret "default" "a" (bundle2 1)).Name ≠ (acmSecret "default" "b" (bundle2 2)).Name) ∧
    ((addToCache [cert2 "a" 1] (cert2 "b" 2)).filter
        (fun v => decide (v.SecretName = (acmSecret "default" "a" (bundle2 1)).Name))
        = [cert2 "a" 1].filter
            (fun v => decide (v.SecretName = (acmSecret "default" "a" (bundle2 1)).Name)) ∧
    ([cert2 "a" 1] ≠ [] →
      cacheChanged (addToCache [cert2 "a" 1] (cert2 "b" 2)) (acmSecret "default" "a" (bundle2 1))
        = cacheChanged [cert2 "a" 1] (acmSecret "default" "a" (bundle2 1)))) :=
  ⟨⟨by decide, by decide⟩,
    addToCache_other_name [cert2 "a" 1] (acmSecret "default" "a" (bundle2 1))
      (acmSecret "default" "b" (bundle2 2)) (cert2 "b" 2) (by decide) (by decide)⟩

/-- The selection outside the panic of `separateCerts`: when every namespace is listed without
error and `cacheChanged` returns on the listed secrets that pass the other four tests, the
secrets that `handleACMCerts` iterates over are, in listed order, the listed secrets with
non-empty `tls.crt` and `tls.key`, the annotation `sync-enabled` = "true", the annotation
`acm-enabled` = "true" and `cacheChanged` true; each selected secret carries both
annotations. -/
theorem ACMCerts_getSecrets_of_returns (list : String → Except GoError (List Secret))
    (items : String → List Secret) (op : String) (cache : List Certificate)
    (scsa : List String) (hlist : ∀ ns ∈ scsa, list ns = .ok (items ns))
    (hret : ∀ s ∈ (scsa.map items).flatten, s.data "tls.crt" ≠ [] → s.data "tls.key" ≠ [] →
      s.annotation (op ++ "/sync-enabled") = "true" →
      s.annotation (op ++ "/acm-enabled") = "true" → ∃ b, cacheChanged cache s = .ok b) :
    ∃ as sel : List Secret,
      getSecrets list op scsa [] = (as, none) ∧
      ACMCerts op cache as = .ok sel ∧
      (∀ (env : Env) (h : List Event),
        handleACMCerts env op { cache := cache, history := h } as
          = handleACMCertsLoop env op { cache := cache, history := h } sel) ∧
      sel = (scsa.map items).flatten.filter (fun s => decide (
        s.data "tls.crt" ≠ [] ∧ s.data "tls.key" ≠ [] ∧
        s.annotation (op ++ "/sync-enabled") = "true" ∧
        s.annotation (op ++ "/acm-enabled") = "true" ∧ cacheChanged cache s = .ok true)) ∧
      ∀ s ∈ sel, s.annotation (op ++ "/sync-enabled") = "true" ∧
        s.annotation (op ++ "/acm-enabled") = "true" := by
  have hget := getSecrets_ok list items op scsa [] hlist
  rw [List.nil_append] at hget
  have hacm := ACMCerts_ok op cache ((scsa.map items).flatten.filter (syncEnabled op)) (by
    intro s hs ha
    obtain ⟨hmem, hsync⟩ := List.mem_filter.mp hs
    rw [syncEnabled_eq, decide_eq_true_eq] at hsync
    exact hret s hmem hsync.1 hsync.2.1 hsync.2.2 ha)
  have hfilter : ((scsa.map items).flatten.filter (syncEnabled op)).filter
      (fun s => decide (s.annotation (op ++ "/acm-enabled") = "true" ∧
        cacheChanged cache s = .ok true))
      = (scsa.map items).flatten.filter (fun s => decide (
        s.data "tls.crt" ≠ [] ∧ s.data "tls.key" ≠ [] ∧
        s.annotation (op ++ "/sync-enabled") = "true" ∧
        s.annotation (op ++ "/acm-enabled") = "true" ∧ cacheChanged cache s = .ok true)) := by
    rw [List.filter_filter]
    apply List.filter_congr
    intro s _
    rw [syncEnabled_eq]
    simp only [Bool.decide_and, Bool.and_comm, Bool.and_assoc, Bool.and_left_comm]
  rw [hfilter] at hacm
  refine ⟨_, _, hget, hacm, fun env h => ?_, rfl, fun s hs => ?_⟩
  · simp only [handleACMCerts, hacm]
  · have := (List.mem_filter.mp hs).2
    rw [decide_eq_true_eq] at this
    exact ⟨this.2.2.1, this.2.2.2.1⟩

/-- The filtering scenario on an empty cache: of "a", "b" and "c" only "a" is selected. -/
theorem ACMCerts_getSecrets_of_returns_filtering :
    ((∀ ns ∈ ["default"], (fun _ : String => (.ok filteringSecrets : Except GoError (List Secret))) ns
        = .ok ((fun _ : String => filteringSecrets) ns)) ∧
      (∀ s ∈ (["default"].map (fun _ : String => filteringSecrets)).flatten,
        s.data "tls.crt" ≠ [] → s.data "tls.key" ≠ [] →
        s.annotation ("op" ++ "/sync-enabled") = "true" →
        s.annotation ("op" ++ "/acm-enabled") = "true" → ∃ b, cacheChanged [] s = .ok b)) ∧
    ∃ as sel : List Secret,
      getSecrets (fun _ => .ok filteringSecrets) "op" ["default"] [] = (as, none) ∧
      ACMCerts "op" [] as = .ok sel ∧ sel = [acmSecret "default" "a" (bundle2 1)] := by
  have hlist : ∀ ns ∈ ["default"],
      (fun _ : String => (.ok filteringSecrets : Except GoError (List Secret))) ns
        = .ok ((fun _ : String => filteringSecrets) ns) := fun _ _ => rfl
  have hret : ∀ s ∈ (["default"].map (fun _ : String => filteringSecrets)).flatten,
      s.data "tls.crt" ≠ [] → s.data "tls.key" ≠ [] →
      s.annotation ("op" ++ "/sync-enabled") = "true" →
      s.annotation ("op" ++ "/acm-enabled") = "true" → ∃ b, cacheChanged [] s = .ok b :=
    fun _ _ _ _ _ _ => ⟨true, rfl⟩
  obtain ⟨as, sel, h1, h2, _, h4, _⟩ :=
    ACMCerts_getSecrets_of_returns (fun _ => .ok filteringSecrets) (fun _ => filteringSecrets)
      "op" []
      ["default"] hlist hret
  refine ⟨⟨hlist, hret⟩, as, sel, h1, h2, ?_⟩
  rw [h4]
  decide

/-- C8 (the code differs): the cache holds an older leaf of the secret "a"; the store lists "a",
which has non-empty `tls.crt` and `tls.key`, both annotations and `cacheChanged` true, and "m",
which has both annotations and the bundle `"x"` without a marker. `getSecrets` keeps both, and
`ACMCerts` panics inside `cacheChanged` on "m": no secret reaches the certificate-manager
path, "a" included. -/
theorem ACMCerts_panics_on_listed_secret :
    getSecrets (fun _ => .ok [acmSecret "default" "a" (bundle2 1), acmSecret "default" "m" [120]])
        "op" ["default"] []
      = ([acmSecret "default" "a" (bundle2 1), acmSecret "default" "m" [120]], none) ∧
    ((acmSecret "default" "a" (bundle2 1)).data "tls.crt" ≠ [] ∧
      (acmSecret "default" "a" (bundle2 1)).data "tls.key" ≠ [] ∧
      Secret.annotation (acmSecret "default" "a" (bundle2 1)) ("op" ++ "/sync-enabled") = "true" ∧
      Secret.annotation (acmSecret "default" "a" (bundle2 1)) ("op" ++ "/acm-enabled") = "true" ∧
      cacheChanged [cert2 "a" 5] (acmSecret "default" "a" (bundle2 1)) = .ok true) ∧
    cacheChanged [cert2 "a" 5] (acmSecret "default" "m" [120])
      = .error (.indexOutOfRange 1 1) ∧
    ACMCerts "op" [cert2 "a" 5]
        [acmSecret "default" "a" (bundle2 1), acmSecret "default" "m" [120]]
      = .error (.indexOutOfRange 1 1) ∧
    ∀ env : Env,
      handleACMCerts env "op" { cache := [cert2 "a" 5], history := [] }
        [acmSecret "default" "a" (bundle2 1), acmSecret "default" "m" [120]]
        = ({ cache := [cert2 "a" 5], history := [] }, .panic (.indexOutOfRange 1 1)) :=
  ⟨by decide, by decide, by decide, by decide, fun _ => rfl⟩

/-- C9: for a secret whose bundle decomposes, `secretToACMInput` returns a request that
`replicateACMCert` sends unchanged (the empty `arn` argument overwrites nothing). With a
non-empty `acm-certificate-arn` annotation the request carries it as `CertificateArn` and no
tags; with the annotation absent or empty it carries no `CertificateArn` and the single tag
`operatorName/secret-name` = the secret's name. -/
theorem secretToACMInput_request (op : String) (s : Secret) (c : Certificate)
    (hs : secretToCert s = .ok c) :
    ∃ im, secretToACMInput op s = .ok im ∧
      (∀ (env : Env) (h : List Event),
        replicateACMCert env h im
          = (h ++ [.importCertificate im], env.acmImportCertificate h im)) ∧
      im.Certificate = c.Certificate ∧ im.CertificateChain = c.Chain ∧ im.PrivateKey = c.Key ∧
      (s.annotation (op ++ "/acm-certificate-arn") ≠ "" →
        im.CertificateArn = some (s.annotation (op ++ "/acm-certificate-arn")) ∧ im.Tags = []) ∧
      (s.annotation (op ++ "/acm-certificate-arn") = "" →
        im.CertificateArn = none ∧
        im.Tags = [{ Key := op ++ "/secret-name", Value := s.Name }]) := by
  have hrep : ∀ (im : ImportCertificateInput) (env : Env) (h : List Event),
      replicateACMCert env h im
        = (h ++ [.importCertificate im], env.acmImportCertificate h im) := by
    intro im env h
    rcases hres : env.acmImportCertificate h im with e | a <;>
      simp [replicateACMCert, ImportCertificate, hres]
  unfold secretToCert at hs
  by_cases ha : s.annotation (op ++ "/acm-certificate-arn") = ""
  · refine ⟨{ Certificate := c.Certificate, CertificateArn := none, CertificateChain := c.Chain,
              PrivateKey := c.Key, Tags := [{ Key := op ++ "/secret-name", Value := s.Name }] },
      ?_, hrep _, rfl, rfl, rfl, fun hne => absurd ha hne, fun _ => ⟨rfl, rfl⟩⟩
    simp [secretToACMInput, separateCertsACM, hs, ha]
  · refine ⟨{ Certificate := c.Certificate,
              CertificateArn := some (s.annotation (op ++ "/acm-certificate-arn")),
              CertificateChain := c.Chain, PrivateKey := c.Key, Tags := [] },
      ?_, hrep _, rfl, rfl, rfl, fun _ => ⟨rfl, rfl⟩, fun he => absurd he ha⟩
    simp [secretToACMInput, separateCertsACM, hs, ha]

/-- A secret without the ARN annotation: the request is tagged with the secret's name. -/
theorem secretToACMInput_request_witness :
    secretToCert (acmSecret "default" "a" (bundle2 1)) = .ok (cert2 "a" 1) ∧
    ∃ im, secretToACMInput "op" (acmSecret "default" "a" (bundle2 1)) = .ok im ∧
      im.CertificateArn = none ∧ im.Tags = [{ Key := "op/secret-name", Value := "a" }] := by
  obtain ⟨im, h1, _, _, _, _, _, h7⟩ :=
    secretToACMInput_request "op" (acmSecret "default" "a" (bundle2 1)) (cert2 "a" 1)
      (by decide)
  exact ⟨by decide, im, h1, h7 (by decide)⟩

/-- C7 (the code differs): the cache is empty and the secrets "a" and "b" are selected; the
sync of "a" succeeds and the sync of "b" is denied. `handleACMCerts` leaves the cache with the
entry of "a" alone, without a record of "b", and on the next cycle, with "b" unchanged,
`ACMCerts` selects no secret: "b" is not selected again. -/
theorem failed_sync_not_selected_again :
    ACMCerts "op" [] [acmSecret "default" "a" (bundle2 1), acmSecret "default" "b" (bundle2 2)]
      = .ok [acmSecret "default" "a" (bundle2 1), acmSecret "default" "b" (bundle2 2)] ∧
    (handleACMCerts (denyLeaf 2) "op" { cache := [], history := [] }
      [acmSecret "default" "a" (bundle2 1), acmSecret "default" "b" (bundle2 2)]).2
      = .err "denied" ∧
    (handleACMCerts (denyLeaf 2) "op" { cache := [], history := [] }
      [acmSecret "default" "a" (bundle2 1), acmSecret "default" "b" (bundle2 2)]).1.cache
      = [cert2 "a" 1] ∧
    cacheChanged [cert2 "a" 1] (acmSecret "default" "b" (bundle2 2)) = .ok false ∧
    ACMCerts "op" [cert2 "a" 1]
      [{ acmSecret "default" "a" (bundle2 1) with
          Annotations := setKey (acmSecret "default" "a" (bundle2 1)).Annotations
            "op/acm-certificate-arn" "arn:aws:acm:123" },
        acmSecret "default" "b" (bundle2 2)] = .ok [] := by
  decide

end CertManagerSync
